import Mathlib

/-!
# Verification of the ChatViewer conversation widget

Shallow embedding of the core logic of `src/ChatViewer.js`:

* the conversation-index build inside `loadConversations` (lines 59-88),
* the message parsing and change-guarded state update inside `loadMessages`
  (lines 90-129),
* the rename workflow `handleRenameSubmit` / `updateDisplayNameInDatabase`
  (lines 152-203),
* the search filter `filteredConversations` (lines 210-213),
* the thread-refresh response application (lines 40-48 and 117-125).

Timestamps (`created_at`) are modelled as natural numbers (epoch
milliseconds); the JavaScript comparison `new Date(a) > new Date(b)` becomes
`b < a` on `Nat`.  Nullable columns become `Option`.  The external JSON
parser is a parameter `parse : String → Option MsgPayload`: `none` models a
`JSON.parse` exception.
-/

namespace ChatViewer

/-- A decoded message payload: the `{type, content}` object stored in the
`message` column. -/
structure MsgPayload where
  type : String
  content : String
deriving Repr, DecidableEq

/-- The `message` column is either a JSON-encoded string or an
already-structured value (`typeof row.message === 'string'` test at line
103). -/
inductive MessageValue where
  | native (p : MsgPayload)
  | text (s : String)
deriving Repr, DecidableEq

/-- One row of the `zest_chat` table. -/
structure ChatRow where
  id : Nat
  session_id : String
  created_at : Nat
  display_name : Option String
  message : MessageValue
deriving Repr, DecidableEq

/-- A derived conversation-index entry (lines 73-77). -/
structure Conversation where
  session_id : String
  created_at : Nat
  display_name : String
deriving Repr, DecidableEq

/-- The synthesized label `` `Conversation ${sessionId.substring(0, 8)}...` ``
(line 76). -/
def synthName (sessionId : String) : String :=
  "Conversation " ++ sessionId.take 8 ++ "..."

/-- The display name chosen at line 76: `row.display_name || synthName`.
JavaScript `||` treats `null`, `undefined` and the empty string as falsy. -/
def dispName (row : ChatRow) : String :=
  match row.display_name with
  | none => synthName row.session_id
  | some s => if s = "" then synthName row.session_id else s

/-- The conversation object built from one row (lines 73-77). -/
def rowConv (row : ChatRow) : Conversation :=
  ⟨row.session_id, row.created_at, dispName row⟩

/-- One step of the grouping loop (lines 70-79): `sessionsMap.set` keeps the
insertion position of an existing key and replaces its value only when the
new row is strictly more recent (`new Date(row.created_at) > new Date(...)`);
an absent key is appended at the end.  The accumulator is the map in
insertion order. -/
def insertRow (row : ChatRow) : List Conversation → List Conversation
  | [] => [rowConv row]
  | c :: cs =>
    if c.session_id = row.session_id then
      (if c.created_at < row.created_at then rowConv row else c) :: cs
    else
      c :: insertRow row cs

/-- The whole grouping loop of `loadConversations` (lines 69-81):
`data.forEach` over the rows followed by `Array.from(sessionsMap.values())`,
which yields the entries in insertion order. -/
def buildIndex (rows : List ChatRow) : List Conversation :=
  rows.foldl (fun m row => insertRow row m) []

/-- The `created_at` values of the rows of one session. -/
def sessionTimes (rows : List ChatRow) (sid : String) : List Nat :=
  (rows.filter (fun r => r.session_id == sid)).map ChatRow.created_at

/-- A parsed message as rendered in the thread (lines 108-113). -/
structure Message where
  id : Nat
  type : String
  content : String
  timestamp : Nat
deriving Repr, DecidableEq

/-- Lines 101-106: decode the payload.  A string payload goes through the
external parser; a thrown exception (`parse = none`) is replaced by the
placeholder `{ type: 'unknown', content: 'Message non parsable' }`.  A
structured payload is used as is. -/
def parsedPayload (parse : String → Option MsgPayload) : MessageValue → MsgPayload
  | .native p => p
  | .text s => (parse s).getD ⟨"unknown", "Message non parsable"⟩

/-- Lines 100-114: map one fetched row to a `Message`. -/
def parseRow (parse : String → Option MsgPayload) (row : ChatRow) : Message :=
  let p := parsedPayload parse row.message
  ⟨row.id, p.type, p.content, row.created_at⟩

/-- `data.map(...)` of `loadMessages` (line 100). -/
def parseMessages (parse : String → Option MsgPayload) (rows : List ChatRow) :
    List Message :=
  rows.map (parseRow parse)

/-- JSON string escaping as performed by `JSON.stringify` on the fields of a
message (quotes and backslashes escaped). -/
def escapeChar (c : Char) : List Char :=
  if c = '"' ∨ c = '\\' then ['\\', c] else [c]

/-- A JSON string literal. -/
def jsonString (s : String) : String :=
  "\"" ++ String.mk (s.data.flatMap escapeChar) ++ "\""

/-- `JSON.stringify` of one message object. -/
def stringifyMessage (m : Message) : String :=
  "\x7b\"id\":" ++ toString m.id ++
  ",\"type\":" ++ jsonString m.type ++
  ",\"content\":" ++ jsonString m.content ++
  ",\"timestamp\":" ++ toString m.timestamp ++ "\x7d"

/-- `JSON.stringify` of a message array, as compared at lines 118-119. -/
def stringifyMessages (ms : List Message) : String :=
  "[" ++ String.intercalate "," (ms.map stringifyMessage) ++ "]"

/-- Whether the functional updater at lines 117-125 replaces the displayed
sequence: it does iff the stringified forms differ (line 121). -/
def messagesReplaced (prev fresh : List Message) : Bool :=
  !(stringifyMessages fresh == stringifyMessages prev)

/-- The functional updater passed to `setMessages` (lines 117-125): return
the fresh sequence when the stringified forms differ, else the previous
sequence unchanged. -/
def updateMessages (prev fresh : List Message) : List Message :=
  if messagesReplaced prev fresh then fresh else prev

/-- The thread-view state touched by a thread-refresh response: the selected
conversation and the displayed messages. -/
structure ThreadView where
  selectedConversation : Option Conversation
  messages : List Message
deriving Repr, DecidableEq

/-- Arrival of a `loadMessages(sessionId)` response (lines 90-129): the
parsed batch is handed to the `setMessages` updater.  The code never
compares `sessionId` with the selection current at arrival time, so the
argument is unused — exactly the race flagged in the source. -/
def applyThreadResponse (st : ThreadView) (_sessionId : String)
    (fetched : List Message) : ThreadView :=
  { st with messages := updateMessages st.messages fetched }

/-- The component state touched by the rename workflow, plus the backing
table (`db`) and the surfaced `alert` notices. -/
structure AppState where
  db : List ChatRow
  conversations : List Conversation
  selectedConversation : Option Conversation
  editingSession : Option String
  newSessionName : String
  alerts : List String
deriving Repr, DecidableEq

/-- `updateDisplayNameInDatabase` (lines 152-169): issue
`update({display_name: newName}).eq('session_id', sessionId)` and report
success.  `dbOk` models whether the backend accepts the statement; on
failure nothing is written and `false` is returned. -/
def updateDisplayNameInDatabase (dbOk : Bool) (sessionId : Option String)
    (newName : String) (db : List ChatRow) : Bool × List ChatRow :=
  if dbOk then
    (true, db.map (fun r =>
      if some r.session_id = sessionId then { r with display_name := some newName } else r))
  else
    (false, db)

/-- The `alert` text at line 198. -/
def renameErrorNotice : String :=
  "Erreur lors de la sauvegarde du nom. Veuillez réessayer."

/-- Drop leading whitespace characters. -/
def trimLeft : List Char → List Char
  | [] => []
  | c :: t => if c.isWhitespace then trimLeft t else c :: t

/-- JavaScript `String.prototype.trim()`: strip whitespace from both ends. -/
def jsTrim (s : String) : String :=
  String.mk ((trimLeft (trimLeft s.data.reverse).reverse))

/-- `handleRenameSubmit` (lines 171-203).  An empty or whitespace-only draft
returns to Idle without persisting (lines 174-177).  Otherwise the trimmed
draft is persisted first; only on success are the index entry and, when it
is the renamed session, the selected conversation updated (lines 182-196);
on failure a notice is surfaced and local state is left unchanged (line
198).  Either way the edit state is cleared (lines 201-202). -/
def handleRenameSubmit (dbOk : Bool) (st : AppState) : AppState :=
  if jsTrim st.newSessionName = "" then
    { st with editingSession := none }
  else
    let trimmed := jsTrim st.newSessionName
    let result := updateDisplayNameInDatabase dbOk st.editingSession trimmed st.db
    if result.1 then
      { st with
        db := result.2
        conversations := st.conversations.map (fun conv =>
          if some conv.session_id = st.editingSession then
            { conv with display_name := trimmed }
          else conv)
        selectedConversation :=
          match st.selectedConversation with
          | some sc =>
            if some sc.session_id = st.editingSession then
              some { sc with display_name := trimmed }
            else some sc
          | none => none
        editingSession := none
        newSessionName := "" }
    else
      { st with
        alerts := st.alerts ++ [renameErrorNotice]
        editingSession := none
        newSessionName := "" }

/-- `array.isPrefixOf`-based substring test: JavaScript
`haystack.includes(needle)`. -/
def listIncludes (sub : List Char) : List Char → Bool
  | [] => sub.isEmpty
  | c :: t => sub.isPrefixOf (c :: t) || listIncludes sub t

/-- The case-insensitive match of lines 211-212. -/
def matchesSearch (conv : Conversation) (searchTerm : String) : Bool :=
  listIncludes searchTerm.toLower.data conv.display_name.toLower.data ||
  listIncludes searchTerm.toLower.data conv.session_id.toLower.data

/-- `filteredConversations` (lines 210-213). -/
def filteredConversations (conversations : List Conversation)
    (searchTerm : String) : List Conversation :=
  conversations.filter (fun conv => matchesSearch conv searchTerm)

/-- The keys of the map, in insertion order. -/
abbrev sids (m : List Conversation) : List String :=
  m.map Conversation.session_id

/-- The entry stored under a key: the first (and, once built by
`insertRow`, only) conversation with that `session_id`. -/
def entry (m : List Conversation) (sid : String) : Option Conversation :=
  m.find? (fun c => c.session_id == sid)

/-- One fold step restricted to a single session key: what the map entry for
`sid` becomes after processing one row. -/
def sessStep (sid : String) (a : Option Conversation) (row : ChatRow) :
    Option Conversation :=
  if row.session_id = sid then
    some (match a with
          | none => rowConv row
          | some c => if c.created_at < row.created_at then rowConv row else c)
  else a

/-- The evolution of the entry for `sid` along the whole row list. -/
def sessFold (sid : String) (acc : Option Conversation) (rows : List ChatRow) :
    Option Conversation :=
  rows.foldl (sessStep sid) acc

theorem mem_sids_insertRow (row : ChatRow) (m : List Conversation) (sid : String) :
    sid ∈ sids (insertRow row m) ↔ sid ∈ sids m ∨ sid = row.session_id := by
  induction m with
  | nil => simp [insertRow, rowConv]
  | cons c cs ih =>
    by_cases h : c.session_id = row.session_id
    · rw [insertRow, if_pos h]
      by_cases h2 : c.created_at < row.created_at
      · rw [if_pos h2]
        simp only [sids, List.map_cons, List.mem_cons, rowConv, h]
        tauto
      · rw [if_neg h2]
        simp only [sids, List.map_cons, List.mem_cons, h]
        tauto
    · rw [insertRow, if_neg h]
      simp only [sids, List.map_cons, List.mem_cons] at ih ⊢
      rw [ih]
      tauto

theorem nodup_sids_insertRow (row : ChatRow) (m : List Conversation)
    (h : (sids m).Nodup) : (sids (insertRow row m)).Nodup := by
  induction m with
  | nil => simp [insertRow, rowConv]
  | cons c cs ih =>
    simp only [sids, List.map_cons, List.nodup_cons] at h
    by_cases hc : c.session_id = row.session_id
    · rw [insertRow, if_pos hc]
      by_cases h2 : c.created_at < row.created_at
      · rw [if_pos h2]
        simpa [sids, rowConv, hc] using h
      · rw [if_neg h2]
        simpa [sids] using h
    · rw [insertRow, if_neg hc]
      simp only [sids, List.map_cons, List.nodup_cons]
      refine ⟨?_, ih h.2⟩
      rw [mem_sids_insertRow]
      push_neg
      exact ⟨h.1, hc⟩

theorem entry_insertRow_ne (row : ChatRow) (m : List Conversation) (sid : String)
    (h : sid ≠ row.session_id) :
    entry (insertRow row m) sid = entry m sid := by
  have hr : (row.session_id == sid) = false := by simp [Ne.symm h]
  induction m with
  | nil =>
    simp [insertRow, entry, List.find?_cons, rowConv, hr]
  | cons c cs ih =>
    by_cases hc : c.session_id = row.session_id
    · have hcf : (c.session_id == sid) = false := by simp [hc, Ne.symm h]
      rw [insertRow, if_pos hc]
      by_cases h2 : c.created_at < row.created_at
      · rw [if_pos h2]
        simp [entry, List.find?_cons, rowConv, hr, hcf]
      · rw [if_neg h2]
    · rw [insertRow, if_neg hc]
      by_cases hcs : (c.session_id == sid) = true
      · simp [entry, List.find?_cons, hcs]
      · have hcf : (c.session_id == sid) = false := by simpa using hcs
        simp only [entry, List.find?_cons, hcf] at ih ⊢
        exact ih

theorem entry_insertRow_self (row : ChatRow) (m : List Conversation) :
    entry (insertRow row m) row.session_id =
      some (match entry m row.session_id with
            | none => rowConv row
            | some c => if c.created_at < row.created_at then rowConv row else c) := by
  induction m with
  | nil =>
    simp [insertRow, entry, List.find?_cons, rowConv]
  | cons c cs ih =>
    by_cases hc : c.session_id = row.session_id
    · have hcpos : (c.session_id == row.session_id) = true := by simp [hc]
      rw [insertRow, if_pos hc]
      by_cases h2 : c.created_at < row.created_at
      · rw [if_pos h2]
        simp [entry, List.find?_cons, rowConv, hcpos, h2]
      · rw [if_neg h2]
        simp [entry, List.find?_cons, hcpos, h2]
    · have hcf : (c.session_id == row.session_id) = false := by simp [hc]
      rw [insertRow, if_neg hc]
      simp only [entry, List.find?_cons, hcf] at ih ⊢
      exact ih

theorem entry_foldl (rows : List ChatRow) :
    ∀ (m : List Conversation) (sid : String),
      entry (rows.foldl (fun m row => insertRow row m) m) sid =
        sessFold sid (entry m sid) rows := by
  induction rows with
  | nil => intro m sid; rfl
  | cons row rest ih =>
    intro m sid
    have key : entry (insertRow row m) sid = sessStep sid (entry m sid) row := by
      by_cases hr : row.session_id = sid
      · subst hr
        rw [entry_insertRow_self]
        simp [sessStep]
      · rw [entry_insertRow_ne row m sid (Ne.symm hr)]
        simp only [sessStep, if_neg hr]
    rw [List.foldl_cons, ih (insertRow row m) sid, key]
    rfl

theorem sessFold_some (sid : String) (rows : List ChatRow) :
    ∀ (acc : Option Conversation) (c : Conversation),
      sessFold sid acc rows = some c →
        (acc = some c ∨ ∃ r ∈ rows, r.session_id = sid ∧ c = rowConv r)
        ∧ (∀ r ∈ rows, r.session_id = sid → r.created_at ≤ c.created_at)
        ∧ (∀ a, acc = some a → a.created_at ≤ c.created_at) := by
  induction rows with
  | nil =>
    intro acc c h
    refine ⟨Or.inl h, by simp, ?_⟩
    intro a ha
    rw [ha] at h
    cases h
    exact Nat.le_refl _
  | cons row rest ih =>
    intro acc c h
    rw [sessFold, List.foldl_cons] at h
    by_cases hr : row.session_id = sid
    · cases acc with
      | none =>
        have hstep : sessStep sid none row = some (rowConv row) := by
          simp only [sessStep, if_pos hr]
        rw [hstep] at h
        obtain ⟨h1, h2, h3⟩ := ih (some (rowConv row)) c h
        have hbc : row.created_at ≤ c.created_at := h3 (rowConv row) rfl
        refine ⟨?_, ?_, ?_⟩
        · rcases h1 with h1 | ⟨r, hrmem, hrsid, hrc⟩
          · cases h1
            exact Or.inr ⟨row, List.mem_cons_self _ _, hr, rfl⟩
          · exact Or.inr ⟨r, List.mem_cons_of_mem _ hrmem, hrsid, hrc⟩
        · intro r hrmem hrsid
          rcases List.mem_cons.mp hrmem with hhead | htail
          · rw [hhead]; exact hbc
          · exact h2 r htail hrsid
        · intro a ha
          cases ha
      | some a =>
        by_cases hlt : a.created_at < row.created_at
        · have hstep : sessStep sid (some a) row = some (rowConv row) := by
            simp only [sessStep, if_pos hr, if_pos hlt]
          rw [hstep] at h
          obtain ⟨h1, h2, h3⟩ := ih (some (rowConv row)) c h
          have hbc : row.created_at ≤ c.created_at := h3 (rowConv row) rfl
          refine ⟨?_, ?_, ?_⟩
          · rcases h1 with h1 | ⟨r, hrmem, hrsid, hrc⟩
            · cases h1
              exact Or.inr ⟨row, List.mem_cons_self _ _, hr, rfl⟩
            · exact Or.inr ⟨r, List.mem_cons_of_mem _ hrmem, hrsid, hrc⟩
          · intro r hrmem hrsid
            rcases List.mem_cons.mp hrmem with hhead | htail
            · rw [hhead]; exact hbc
            · exact h2 r htail hrsid
          · intro b hb
            cases hb
            exact Nat.le_trans (Nat.le_of_lt hlt) hbc
        · have hstep : sessStep sid (some a) row = some a := by
            simp only [sessStep, if_pos hr, if_neg hlt]
          rw [hstep] at h
          obtain ⟨h1, h2, h3⟩ := ih (some a) c h
          have hac : a.created_at ≤ c.created_at := h3 a rfl
          refine ⟨?_, ?_, ?_⟩
          · rcases h1 with h1 | ⟨r, hrmem, hrsid, hrc⟩
            · exact Or.inl h1
            · exact Or.inr ⟨r, List.mem_cons_of_mem _ hrmem, hrsid, hrc⟩
          · intro r hrmem hrsid
            rcases List.mem_cons.mp hrmem with hhead | htail
            · rw [hhead]
              exact Nat.le_trans (Nat.le_of_not_lt hlt) hac
            · exact h2 r htail hrsid
          · intro b hb
            cases hb
            exact hac
    · have hstep : sessStep sid acc row = acc := by
        simp only [sessStep, if_neg hr]
      rw [hstep] at h
      obtain ⟨h1, h2, h3⟩ := ih acc c h
      refine ⟨?_, ?_, h3⟩
      · rcases h1 with h1 | ⟨r, hrmem, hrsid, hrc⟩
        · exact Or.inl h1
        · exact Or.inr ⟨r, List.mem_cons_of_mem _ hrmem, hrsid, hrc⟩
      · intro r hrmem hrsid
        rcases List.mem_cons.mp hrmem with hhead | htail
        · rw [hhead] at hrsid; exact absurd hrsid hr
        · exact h2 r htail hrsid

theorem mem_sids_foldl (rows : List ChatRow) :
    ∀ (m : List Conversation) (sid : String),
      sid ∈ sids (rows.foldl (fun m row => insertRow row m) m) ↔
        sid ∈ sids m ∨ ∃ r ∈ rows, r.session_id = sid := by
  induction rows with
  | nil => intro m sid; simp
  | cons row rest ih =>
    intro m sid
    rw [List.foldl_cons, ih (insertRow row m) sid, mem_sids_insertRow]
    constructor
    · rintro ((h | h) | ⟨r, hr, hrs⟩)
      · exact Or.inl h
      · exact Or.inr ⟨row, List.mem_cons_self _ _, h.symm⟩
      · exact Or.inr ⟨r, List.mem_cons_of_mem _ hr, hrs⟩
    · rintro (h | ⟨r, hr, hrs⟩)
      · exact Or.inl (Or.inl h)
      · rcases List.mem_cons.mp hr with hhead | htail
        · subst hhead; exact Or.inl (Or.inr hrs.symm)
        · exact Or.inr ⟨r, htail, hrs⟩

theorem nodup_sids_foldl (rows : List ChatRow) :
    ∀ m : List Conversation, (sids m).Nodup →
      (sids (rows.foldl (fun m row => insertRow row m) m)).Nodup := by
  induction rows with
  | nil => intro m h; exact h
  | cons row rest ih =>
    intro m h
    rw [List.foldl_cons]
    exact ih (insertRow row m) (nodup_sids_insertRow row m h)

theorem buildIndex_sids_nodup (rows : List ChatRow) :
    (sids (buildIndex rows)).Nodup :=
  nodup_sids_foldl rows [] (by simp [sids])

theorem mem_sids_buildIndex (rows : List ChatRow) (sid : String) :
    sid ∈ sids (buildIndex rows) ↔ ∃ r ∈ rows, r.session_id = sid := by
  rw [buildIndex, mem_sids_foldl]
  simp [sids]

theorem entry_of_mem_of_nodup (m : List Conversation) (c : Conversation)
    (hnd : (sids m).Nodup) (hmem : c ∈ m) :
    entry m c.session_id = some c := by
  induction m with
  | nil => cases hmem
  | cons d ds ih =>
    simp only [sids, List.map_cons, List.nodup_cons] at hnd
    rcases List.mem_cons.mp hmem with hhead | htail
    · subst hhead
      simp [entry, List.find?_cons]
    · have hds : c.session_id ∈ sids ds := List.mem_map_of_mem _ htail
      have hne : (d.session_id == c.session_id) = false := by
        simp only [beq_eq_false_iff_ne, ne_eq]
        intro hcontra
        rw [hcontra] at hnd
        exact hnd.1 hds
      simp only [entry, List.find?_cons, hne]
      exact ih hnd.2 htail

/-- Master characterization: each conversation of the built index is
`rowConv` of a row of its session whose `created_at` bounds every row of
that session. -/
theorem buildIndex_mem_spec (rows : List ChatRow) (c : Conversation)
    (hc : c ∈ buildIndex rows) :
    ∃ r ∈ rows, r.session_id = c.session_id ∧ c = rowConv r ∧
      ∀ r2 ∈ rows, r2.session_id = c.session_id → r2.created_at ≤ c.created_at := by
  have hent : entry (buildIndex rows) c.session_id = some c :=
    entry_of_mem_of_nodup _ c (buildIndex_sids_nodup rows) hc
  rw [buildIndex, entry_foldl rows [] c.session_id] at hent
  have hent2 : sessFold c.session_id none rows = some c := hent
  obtain ⟨h1, h2, -⟩ := sessFold_some c.session_id rows none c hent2
  rcases h1 with h1 | ⟨r, hrmem, hrsid, hrc⟩
  · cases h1
  · exact ⟨r, hrmem, hrsid, hrc, h2⟩

theorem synthName_ne_empty (s : String) : synthName s ≠ "" := by
  intro h
  have hlen := congrArg String.length h
  rw [synthName, String.length_append, String.length_append] at hlen
  have h13 : ("Conversation " : String).length = 13 := rfl
  have h3 : ("..." : String).length = 3 := rfl
  have h0 : ("" : String).length = 0 := rfl
  omega

/-- Sample rows used to instantiate the theorems: two rows of session
`alpha-session` (most recent one unnamed), one row of `beta-session` with an
empty stored name, listed in descending `created_at` order. -/
def rowA1 : ChatRow := ⟨1, "alpha-session", 9, none, .text "bad json"⟩

def rowB1 : ChatRow := ⟨3, "beta-session", 7, some "", .native ⟨"ai", "yo"⟩⟩

def rowA2 : ChatRow := ⟨2, "alpha-session", 5, some "Hello", .native ⟨"human", "hi"⟩⟩

def sampleRows : List ChatRow := [rowA1, rowB1, rowA2]

/-- C1: the grouping loop of `loadConversations` produces exactly one
`Conversation` per distinct `session_id` of the input rows (the produced
`session_id`s are duplicate-free and are exactly those occurring in the
rows), and each produced conversation's `created_at` is the maximum
`created_at` among the rows of its session. -/
theorem buildIndex_one_conversation_per_session (rows : List ChatRow) :
    ((buildIndex rows).map Conversation.session_id).Nodup
    ∧ (∀ sid, sid ∈ (buildIndex rows).map Conversation.session_id ↔
        ∃ r ∈ rows, r.session_id = sid)
    ∧ ∀ c ∈ buildIndex rows,
        c.created_at ∈ sessionTimes rows c.session_id
        ∧ ∀ t ∈ sessionTimes rows c.session_id, t ≤ c.created_at := by
  refine ⟨buildIndex_sids_nodup rows, fun sid => mem_sids_buildIndex rows sid, ?_⟩
  intro c hc
  obtain ⟨r, hrmem, hrsid, hrc, hmax⟩ := buildIndex_mem_spec rows c hc
  constructor
  · have hcr : c.created_at = r.created_at := by rw [hrc]; rfl
    rw [hcr]
    apply List.mem_map_of_mem
    rw [List.mem_filter]
    exact ⟨hrmem, by simp [hrsid]⟩
  · intro t ht
    obtain ⟨r2, hr2, ht2⟩ := List.mem_map.mp ht
    rw [List.mem_filter] at hr2
    have hsid2 : r2.session_id = c.session_id := by simpa using hr2.2
    rw [← ht2]
    exact hmax r2 hr2.1 hsid2

theorem buildIndex_one_conversation_per_session_witness :
    ((buildIndex sampleRows).map Conversation.session_id).Nodup
    ∧ (9 : Nat) ∈ sessionTimes sampleRows "alpha-session"
    ∧ (5 : Nat) ≤ 9 := by
  have h := buildIndex_one_conversation_per_session sampleRows
  have hc : (⟨"alpha-session", 9, "Conversation alpha-se..."⟩ : Conversation)
      ∈ buildIndex sampleRows := by decide
  have h3 := h.2.2 _ hc
  exact ⟨h.1, h3.1, h3.2 5 (by decide)⟩

/-- C2 fails on the code: when the most recent row of a session has no
stored name, the synthesized label is used even though an older row of the
same session carries a non-empty stored name.  Here session `gamma-session`
has a row named `Support`, yet no stored name of any row equals the produced
display name. -/
theorem buildIndex_display_name_counterexample :
    buildIndex [⟨10, "gamma-session", 4, none, .native ⟨"ai", "hello"⟩⟩,
                ⟨11, "gamma-session", 3, some "Support", .native ⟨"human", "hi"⟩⟩] =
      [⟨"gamma-session", 4, "Conversation gamma-se..."⟩]
    ∧ (⟨11, "gamma-session", 3, some "Support", .native ⟨"human", "hi"⟩⟩ : ChatRow).display_name
        = some "Support"
    ∧ "Support" ≠ ""
    ∧ "Conversation gamma-se..." ≠ "Support" := by decide

/-- C2 (amended): the display name of each produced conversation is that of
the kept row — a row of its session with maximal `created_at`: the stored
name when that row carries a non-empty one, else the synthesized label.  In
particular a session none of whose rows carries a non-empty stored name
yields the synthesized label built from the first 8 characters of the
session id. -/
theorem buildIndex_display_name_amended (rows : List ChatRow) (c : Conversation)
    (hc : c ∈ buildIndex rows) :
    ∃ r ∈ rows, r.session_id = c.session_id
      ∧ (∀ r2 ∈ rows, r2.session_id = c.session_id → r2.created_at ≤ r.created_at)
      ∧ c.display_name = dispName r
      ∧ ((∀ r2 ∈ rows, r2.session_id = c.session_id →
            r2.display_name = none ∨ r2.display_name = some "") →
          c.display_name = synthName c.session_id) := by
  obtain ⟨r, hrmem, hrsid, hrc, hmax⟩ := buildIndex_mem_spec rows c hc
  have hcr : c.created_at = r.created_at := by rw [hrc]; rfl
  have hdisp : c.display_name = dispName r := by rw [hrc]; rfl
  refine ⟨r, hrmem, hrsid, ?_, hdisp, ?_⟩
  · intro r2 h2 hs2
    have hle := hmax r2 h2 hs2
    rw [hcr] at hle
    exact hle
  · intro hall
    have hr2 := hall r hrmem hrsid
    rw [hdisp, ← hrsid]
    rcases hr2 with hnone | hempty
    · simp only [dispName, hnone]
    · simp [dispName, hempty]

theorem buildIndex_display_name_amended_witness :
    "Conversation beta-ses..." = synthName "beta-session" := by
  obtain ⟨r, hrmem, hrsid, hmax, hdisp, hsynth⟩ :=
    buildIndex_display_name_amended sampleRows
      ⟨"beta-session", 7, "Conversation beta-ses..."⟩ (by decide)
  exact hsynth (by decide)

/-- C10: every conversation the index build produces has a non-empty display
name — a row with a `null`, absent or empty stored name is given the
synthesized `Conversation <first 8 chars>...` label instead, so the filter's
`toLowerCase` always has a name to work on. -/
theorem buildIndex_display_name_nonempty (rows : List ChatRow) :
    ∀ c ∈ buildIndex rows, c.display_name ≠ "" := by
  intro c hc
  obtain ⟨r, -, -, hrc, -⟩ := buildIndex_mem_spec rows c hc
  rw [hrc]
  show dispName r ≠ ""
  cases hd : r.display_name with
  | none =>
    simp only [dispName, hd]
    exact synthName_ne_empty _
  | some s =>
    simp only [dispName, hd]
    by_cases hs : s = ""
    · rw [if_pos hs]
      exact synthName_ne_empty _
    · rw [if_neg hs]
      exact hs

theorem buildIndex_display_name_nonempty_witness :
    (⟨"alpha-session", 9, "Conversation alpha-se..."⟩ : Conversation).display_name ≠ "" :=
  buildIndex_display_name_nonempty sampleRows
    ⟨"alpha-session", 9, "Conversation alpha-se..."⟩ (by decide)

theorem mem_insertRow (row : ChatRow) (m : List Conversation) (c : Conversation)
    (h : c ∈ insertRow row m) : c ∈ m ∨ c = rowConv row := by
  induction m with
  | nil =>
    rw [insertRow] at h
    exact Or.inr (List.mem_singleton.mp h)
  | cons d ds ih =>
    by_cases hd : d.session_id = row.session_id
    · rw [insertRow, if_pos hd] at h
      by_cases h2 : d.created_at < row.created_at
      · rw [if_pos h2] at h
        rcases List.mem_cons.mp h with hh | ht
        · exact Or.inr hh
        · exact Or.inl (List.mem_cons_of_mem _ ht)
      · rw [if_neg h2] at h
        rcases List.mem_cons.mp h with hh | ht
        · exact Or.inl (hh ▸ List.mem_cons_self _ _)
        · exact Or.inl (List.mem_cons_of_mem _ ht)
    · rw [insertRow, if_neg hd] at h
      rcases List.mem_cons.mp h with hh | ht
      · exact Or.inl (hh ▸ List.mem_cons_self _ _)
      · rcases ih ht with hm | he
        · exact Or.inl (List.mem_cons_of_mem _ hm)
        · exact Or.inr he

theorem insertRow_of_le (row : ChatRow) (m : List Conversation)
    (h : ∀ c ∈ m, row.created_at ≤ c.created_at) :
    insertRow row m = m ∨ insertRow row m = m ++ [rowConv row] := by
  induction m with
  | nil => exact Or.inr rfl
  | cons c cs ih =>
    by_cases hc : c.session_id = row.session_id
    · left
      rw [insertRow, if_pos hc,
        if_neg (Nat.not_lt.mpr (h c (List.mem_cons_self _ _)))]
    · rw [insertRow, if_neg hc]
      rcases ih (fun d hd => h d (List.mem_cons_of_mem _ hd)) with he | he
      · exact Or.inl (by rw [he])
      · exact Or.inr (by rw [he, List.cons_append])

theorem foldl_sorted_desc (rows : List ChatRow) :
    ∀ m : List Conversation,
      List.Pairwise (fun a b : Conversation => b.created_at ≤ a.created_at) m →
      (∀ c ∈ m, ∀ r ∈ rows, r.created_at ≤ c.created_at) →
      List.Pairwise (fun a b : ChatRow => b.created_at ≤ a.created_at) rows →
      List.Pairwise (fun a b : Conversation => b.created_at ≤ a.created_at)
        (rows.foldl (fun m row => insertRow row m) m) := by
  induction rows with
  | nil => intro m hm _ _; exact hm
  | cons row rest ih =>
    intro m hm hbound hrows
    rw [List.foldl_cons]
    have hrow_le : ∀ c ∈ m, row.created_at ≤ c.created_at :=
      fun c hc => hbound c hc row (List.mem_cons_self _ _)
    have hpair := List.pairwise_cons.mp hrows
    apply ih (insertRow row m)
    · rcases insertRow_of_le row m hrow_le with he | he
      · rw [he]; exact hm
      · rw [he, List.pairwise_append]
        refine ⟨hm, List.pairwise_singleton _ _, ?_⟩
        intro a ha b hb
        rw [List.mem_singleton.mp hb]
        exact hrow_le a ha
    · intro c hc r hr
      rcases mem_insertRow row m c hc with hm2 | he
      · exact hbound c hm2 r (List.mem_cons_of_mem _ hr)
      · rw [he]
        exact hpair.1 r hr
    · exact hpair.2

/-- C8: when the input rows arrive ordered by `created_at` descending (as
the backend query orders them), the produced conversation index is ordered
by `created_at` descending as well. -/
theorem buildIndex_sorted_desc (rows : List ChatRow)
    (h : List.Pairwise (fun a b : ChatRow => b.created_at ≤ a.created_at) rows) :
    List.Pairwise (fun a b : Conversation => b.created_at ≤ a.created_at)
      (buildIndex rows) :=
  foldl_sorted_desc rows [] List.Pairwise.nil (by intro c hc; cases hc) h

theorem buildIndex_sorted_desc_witness :
    List.Pairwise (fun a b : Conversation => b.created_at ≤ a.created_at)
      (buildIndex sampleRows) :=
  buildIndex_sorted_desc sampleRows (by decide)

/-- A parser that always fails, standing in for `JSON.parse` throwing. -/
def failParse : String → Option MsgPayload := fun _ => none

/-- C3: decoding is per-row and non-fatal: `loadMessages` yields exactly one
`Message` per fetched row (same length, pointwise images), and a row whose
payload fails to decode yields `type = "unknown"` with the fixed placeholder
content, while still appearing in the batch. -/
theorem loadMessages_decode_failure (parse : String → Option MsgPayload)
    (rows : List ChatRow) :
    (parseMessages parse rows).length = rows.length
    ∧ (∀ i : Nat, (parseMessages parse rows)[i]? = (rows[i]?).map (parseRow parse))
    ∧ ∀ r ∈ rows, ∀ s, r.message = MessageValue.text s → parse s = none →
        (parseRow parse r).type = "unknown"
        ∧ (parseRow parse r).content = "Message non parsable"
        ∧ parseRow parse r ∈ parseMessages parse rows := by
  refine ⟨List.length_map _ _, fun i => List.getElem?_map .., ?_⟩
  intro r hr s hmsg hparse
  refine ⟨?_, ?_, List.mem_map_of_mem _ hr⟩
  · simp [parseRow, parsedPayload, hmsg, hparse]
  · simp [parseRow, parsedPayload, hmsg, hparse]

theorem loadMessages_decode_failure_witness :
    (parseRow failParse rowA1).type = "unknown"
    ∧ (parseRow failParse rowA1).content = "Message non parsable"
    ∧ parseRow failParse rowA1 ∈ parseMessages failParse sampleRows :=
  (loadMessages_decode_failure failParse sampleRows).2.2 rowA1 (by decide)
    "bad json" rfl rfl

/-- C5: the `setMessages` updater is stable on structurally equal content: a
fresh batch equal to the displayed one is not applied (the previous sequence
is returned and the replaced-flag is false), and a replacement happens only
when the contents differ. -/
theorem updateMessages_stable (prev fresh : List Message) :
    (fresh = prev →
      messagesReplaced prev fresh = false ∧ updateMessages prev fresh = prev)
    ∧ (messagesReplaced prev fresh = true →
      fresh ≠ prev ∧ updateMessages prev fresh = fresh) := by
  constructor
  · intro h
    subst h
    have hrep : messagesReplaced fresh fresh = false := by
      simp [messagesReplaced]
    exact ⟨hrep, by rw [updateMessages, hrep]; simp⟩
  · intro h
    have hne : stringifyMessages fresh ≠ stringifyMessages prev := by
      simpa [messagesReplaced] using h
    refine ⟨?_, by rw [updateMessages, h]; simp⟩
    intro hcontra
    exact hne (by rw [hcontra])

theorem updateMessages_stable_witness :
    messagesReplaced [] [] = false ∧ updateMessages [] [] = [] :=
  (updateMessages_stable [] []).1 rfl

/-- C4 fails on the code: the thread-refresh application never checks that
the response belongs to the currently selected session.  Here the view has
`session-B` selected, yet a late response issued for `session-A` overwrites
the displayed messages instead of being discarded. -/
theorem applyThreadResponse_stale_applied :
    (applyThreadResponse ⟨some ⟨"session-B", 5, "B"⟩, []⟩ "session-A"
        [⟨1, "human", "old", 1⟩]).messages = [⟨1, "human", "old", 1⟩]
    ∧ "session-A" ≠ "session-B" := by
  constructor
  · rfl
  · decide

/-- The conversation-index entry for `alpha-session` as built from
`sampleRows`. -/
def convAlpha : Conversation := ⟨"alpha-session", 9, "Conversation alpha-se..."⟩

/-- A state with a rename of `alpha-session` in progress. -/
def sampleState : AppState :=
  ⟨sampleRows, [convAlpha], some convAlpha, some "alpha-session", "  New name  ", []⟩

/-- The same state with a whitespace-only draft. -/
def wsState : AppState :=
  ⟨sampleRows, [convAlpha], some convAlpha, some "alpha-session", "   ", []⟩

/-- C6: with a non-blank draft, a rename submission first persists; on
success the index entry of the edited session gets the trimmed draft name,
the selected conversation is renamed exactly when it is that session, and no
failure notice is raised; on failure the state is unchanged except that the
draft is discarded, the edit is closed and a failure notice is surfaced —
the new name is never applied locally without backend confirmation. -/
theorem handleRenameSubmit_spec (st : AppState) (sid : String)
    (hedit : st.editingSession = some sid)
    (hne : jsTrim st.newSessionName ≠ "") :
    ((handleRenameSubmit true st).conversations =
        st.conversations.map (fun conv =>
          if conv.session_id = sid then
            { conv with display_name := jsTrim st.newSessionName }
          else conv))
    ∧ ((handleRenameSubmit true st).db =
        st.db.map (fun r =>
          if r.session_id = sid then
            { r with display_name := some (jsTrim st.newSessionName) }
          else r))
    ∧ (∀ sc, st.selectedConversation = some sc → sc.session_id = sid →
        (handleRenameSubmit true st).selectedConversation =
          some { sc with display_name := jsTrim st.newSessionName })
    ∧ (∀ sc, st.selectedConversation = some sc → sc.session_id ≠ sid →
        (handleRenameSubmit true st).selectedConversation = some sc)
    ∧ (handleRenameSubmit true st).alerts = st.alerts
    ∧ (handleRenameSubmit true st).editingSession = none
    ∧ handleRenameSubmit false st =
        { st with
          alerts := st.alerts ++ [renameErrorNotice]
          editingSession := none
          newSessionName := "" } := by
  have hsucc : handleRenameSubmit true st =
      { st with
        db := st.db.map (fun r =>
          if some r.session_id = st.editingSession then
            { r with display_name := some (jsTrim st.newSessionName) }
          else r)
        conversations := st.conversations.map (fun conv =>
          if some conv.session_id = st.editingSession then
            { conv with display_name := jsTrim st.newSessionName }
          else conv)
        selectedConversation :=
          match st.selectedConversation with
          | some sc =>
            if some sc.session_id = st.editingSession then
              some { sc with display_name := jsTrim st.newSessionName }
            else some sc
          | none => none
        editingSession := none
        newSessionName := "" } := by
    rw [handleRenameSubmit, if_neg hne]
    rfl
  have hfail : handleRenameSubmit false st =
      { st with
        alerts := st.alerts ++ [renameErrorNotice]
        editingSession := none
        newSessionName := "" } := by
    rw [handleRenameSubmit, if_neg hne]
    rfl
  refine ⟨?_, ?_, ?_, ?_, ?_, ?_, hfail⟩
  · rw [hsucc, hedit]
    simp only [Option.some.injEq]
  · rw [hsucc, hedit]
    simp only [Option.some.injEq]
  · intro sc hsc hsid
    rw [hsucc, hedit]
    simp only [hsc, hedit, Option.some.injEq]
    rw [if_pos hsid]
  · intro sc hsc hsid
    rw [hsucc, hedit]
    simp only [hsc, hedit, Option.some.injEq]
    rw [if_neg hsid]
  · rw [hsucc]
  · rw [hsucc]

theorem handleRenameSubmit_spec_witness :
    (handleRenameSubmit true sampleState).conversations =
      sampleState.conversations.map (fun conv =>
        if conv.session_id = "alpha-session" then
          { conv with display_name := jsTrim sampleState.newSessionName }
        else conv) :=
  (handleRenameSubmit_spec sampleState "alpha-session" rfl (by decide)).1

/-- C7: an empty or whitespace-only draft is a cancel: nothing is persisted
(the table is untouched for either backend outcome), the index and the
selected conversation keep their names, and the edit state returns to Idle.
-/
theorem handleRenameSubmit_empty (dbOk : Bool) (st : AppState)
    (h : jsTrim st.newSessionName = "") :
    (handleRenameSubmit dbOk st).db = st.db
    ∧ (handleRenameSubmit dbOk st).conversations = st.conversations
    ∧ (handleRenameSubmit dbOk st).selectedConversation = st.selectedConversation
    ∧ (handleRenameSubmit dbOk st).alerts = st.alerts
    ∧ (handleRenameSubmit dbOk st).editingSession = none := by
  have he : handleRenameSubmit dbOk st = { st with editingSession := none } := by
    rw [handleRenameSubmit, if_pos h]
  rw [he]
  exact ⟨rfl, rfl, rfl, rfl, rfl⟩

theorem handleRenameSubmit_empty_witness :
    (handleRenameSubmit true wsState).db = wsState.db
    ∧ (handleRenameSubmit true wsState).conversations = wsState.conversations
    ∧ (handleRenameSubmit true wsState).selectedConversation = wsState.selectedConversation
    ∧ (handleRenameSubmit true wsState).alerts = wsState.alerts
    ∧ (handleRenameSubmit true wsState).editingSession = none :=
  handleRenameSubmit_empty true wsState (by decide)

theorem isPrefixOf_eq_true_iff (l1 : List Char) :
    ∀ l2 : List Char, l1.isPrefixOf l2 = true ↔ ∃ t, l1 ++ t = l2 := by
  induction l1 with
  | nil =>
    intro l2
    simp [List.isPrefixOf]
  | cons a s ih =>
    intro l2
    cases l2 with
    | nil => simp [List.isPrefixOf]
    | cons b t =>
      rw [List.isPrefixOf, Bool.and_eq_true, beq_iff_eq, ih t]
      constructor
      · rintro ⟨rfl, u, rfl⟩
        exact ⟨u, rfl⟩
      · rintro ⟨u, hu⟩
        rw [List.cons_append] at hu
        injection hu with h1 h2
        exact ⟨h1, u, h2⟩

theorem listIncludes_iff (sub : List Char) :
    ∀ l : List Char, listIncludes sub l = true ↔ ∃ p q, p ++ sub ++ q = l := by
  intro l
  induction l with
  | nil =>
    rw [listIncludes]
    constructor
    · intro h
      have hsub : sub = [] := by simpa using h
      exact ⟨[], [], by simp [hsub]⟩
    · rintro ⟨p, q, hpq⟩
      have h1 := List.append_eq_nil.mp hpq
      have h2 := List.append_eq_nil.mp h1.1
      simp [h2.2]
  | cons c t ih =>
    rw [listIncludes, Bool.or_eq_true, isPrefixOf_eq_true_iff, ih]
    constructor
    · rintro (⟨u, hu⟩ | ⟨p, q, hpq⟩)
      · exact ⟨[], u, by simpa using hu⟩
      · exact ⟨c :: p, q, by rw [List.cons_append, List.cons_append, hpq]⟩
    · rintro ⟨p, q, hpq⟩
      cases p with
      | nil =>
        exact Or.inl ⟨q, by simpa using hpq⟩
      | cons x p2 =>
        rw [List.cons_append, List.cons_append] at hpq
        injection hpq with h1 h2
        exact Or.inr ⟨p2, q, h2⟩

/-- C9: a conversation appears in the filtered list iff it is in the index
and its lowercased display name or lowercased session id contains the
lowercased search term as a substring; the filter only selects from the
index (sublist), never altering it. -/
theorem filteredConversations_spec (conversations : List Conversation)
    (searchTerm : String) :
    List.Sublist (filteredConversations conversations searchTerm) conversations
    ∧ ∀ c, c ∈ filteredConversations conversations searchTerm ↔
        (c ∈ conversations ∧
          ((∃ p q, p ++ searchTerm.toLower.data ++ q = c.display_name.toLower.data)
           ∨ ∃ p q, p ++ searchTerm.toLower.data ++ q = c.session_id.toLower.data)) := by
  refine ⟨List.filter_sublist _, ?_⟩
  intro c
  rw [filteredConversations, List.mem_filter, matchesSearch, Bool.or_eq_true,
    listIncludes_iff, listIncludes_iff]

theorem filteredConversations_spec_witness :
    List.Sublist (filteredConversations [convAlpha] "ALPHA") [convAlpha] :=
  (filteredConversations_spec [convAlpha] "ALPHA").1

end ChatViewer
